import Mathlib

/-!
Verification of the GaloisField library (galois_field/fast_polynom.py,
galois_field/util.py, galois_field/GF.py) against its specification.

The Python code is shallowly embedded: the sparse polynomial container
(`FastPolynom`) becomes an association list from degree to coefficient kept
sorted by degree (Python dict insertion order never influences any result:
every place the code consumes the key set it either sorts it first or folds
with an order-insensitive operation), Python integers become `Int`, Python
exceptions become an error type threaded through `Except`, and the few
`while` loops become fuel-indexed recursions (running out of fuel is a
distinguished error, never confused with any Python exception).

Python `%` and `//` on integers agree with `Int.emod` / `Int.ediv` for
positive divisors, which is the only way the code divides except for the
division-by-zero paths, which are modelled explicitly as errors
(`x % 0` and `x // 0` raise `ZeroDivisionError` in Python).
-/

set_option maxRecDepth 100000

namespace GaloisField

/-- Python exceptions (and one model artifact, `outOfFuel`). -/
inductive PyErr where
  /-- `FFOperationException(op, msg)` from galois_field/exceptions.py -/
  | ffOp (op msg : String)
  /-- `PrimeFieldNoFitException` -/
  | primeFieldNoFit
  /-- Python `AssertionError` with the assert's message -/
  | assertError (msg : String)
  /-- Python builtin `ZeroDivisionError` (integer `%` or `//` by 0) -/
  | zeroDivisionError
  /-- Python builtin `TypeError` (e.g. arithmetic on `None`) -/
  | typeError
  /-- Python builtin `IndexError` (e.g. `list[-1]` on an empty list) -/
  | indexError
  /-- Python builtin `AttributeError` -/
  | attributeError
  /-- a bare `raise Exception(msg)` -/
  | plainExc (msg : String)
  /-- model artifact: a `while` loop did not finish within the given fuel -/
  | outOfFuel
  deriving Repr, DecidableEq

/-- The sparse container of `FastPolynom`: degree/coefficient pairs, kept
sorted by strictly increasing degree.  Zero coefficients can be stored
(exactly as in Python, where `broadcast_modulo` may drive an entry to 0
without deleting it), but `__setitem__` never stores them. -/
abbrev Coeffs := List (Nat × Int)

/-- Dict lookup with default 0: `FastPolynom.__getitem__` for `i >= 0`. -/
def fpGet : Coeffs → Nat → Int
  | [], _ => 0
  | kv :: rest, i => if kv.1 = i then kv.2 else fpGet rest i

/-- Insert-or-replace keeping the list sorted by degree. -/
def fpInsert : Coeffs → Nat → Int → Coeffs
  | [], i, v => [(i, v)]
  | kv :: rest, i, v =>
    if i < kv.1 then (i, v) :: kv :: rest
    else if i = kv.1 then (i, v) :: rest
    else kv :: fpInsert rest i v

/-- `FastPolynom.__setitem__` for a non-negative degree: storing 0 deletes
the entry, anything else is stored. -/
def fpSet (c : Coeffs) (i : Nat) (v : Int) : Coeffs :=
  if v = 0 then c.filter (fun kv => kv.1 ≠ i) else fpInsert c i v

/-- `FastPolynom.get_max_degree` on a cache-less container:
`max(keys)` if the dict is non-empty, else `-1`. -/
def fpMaxDeg : Coeffs → Int
  | [] => -1
  | kv :: rest => max (kv.1 : Int) (fpMaxDeg rest)

/-- `FastPolynom.__getitem__` including the `i == -1` special case
(which re-reads the coefficient at the maximum degree). -/
def fpGetI (c : Coeffs) (i : Int) : Int :=
  if i = -1 then fpGet c (fpMaxDeg c).toNat
  else if i < 0 then 0
  else fpGet c i.toNat

/-- `FastPolynom.broadcast_modulo`: reduce every stored coefficient mod p in
place; entries reduced to 0 are kept (the invariant violation is Python's). -/
def fpBroadcast (c : Coeffs) (p : Nat) : Coeffs :=
  c.map (fun kv => (kv.1, kv.2 % (p : Int)))

/-- `list.sort()` on the key list (keys are distinct, so any correct sort
gives the same output as Python's). -/
def sortAsc (l : List Nat) : List Nat :=
  List.insertionSort (· ≤ ·) l

/-- `FastPolynom.get_keys(rev)` on a cache-less container.  The Python code
reverses *before* sorting, so `rev` has no effect on the output. -/
def fpKeys (c : Coeffs) (rev : Bool) : List Nat :=
  sortAsc (if rev then (c.map Prod.fst).reverse else c.map Prod.fst)

/-- `FastPolynom.compute(x)`: fold `total = total * x + self[i]` over
`get_keys(rev=True)` (which, see above, is the ascending key list). -/
def fpCompute (c : Coeffs) (x : Int) : Int :=
  (fpKeys c true).foldl (fun t i => t * x + fpGet c i) 0

/-- Dict equality as `FastPolynom.__eq__` observes it (same key set, same
value at every key).  On the sorted representation this is plain equality,
but we keep the observational definition. -/
def fpEqB (c1 c2 : Coeffs) : Bool :=
  fpKeys c1 false == fpKeys c2 false &&
    (fpKeys c1 false).all (fun i => fpGet c1 i == fpGet c2 i)

/-- `util.get_sign`. -/
def getSign (x : Int) (ignore : Bool) : String :=
  if x < 0 then "- " else if ignore then "" else "+ "

/-- Inner 6k±1 trial-division loop of `util.is_prime`, fuelled. -/
def isPrimeLoop : Nat → Nat → Nat → Bool
  | 0, _, _ => false
  | fuel + 1, n, i =>
    if i * i ≤ n then
      if n % (i - 1) = 0 ∨ n % (i + 1) = 0 then false
      else isPrimeLoop fuel n (i + 6)
    else true

/-- `util.is_prime` (the loop needs at most `n` rounds of fuel). -/
def pyIsPrime (n : Int) : Bool :=
  if n ≤ 1 then false
  else if n ≤ 3 then true
  else if n % 2 = 0 ∨ n % 3 = 0 then false
  else isPrimeLoop n.toNat n.toNat 6

/-- `util.check_irr(poly, primes, px)`.  `functools.reduce` over an empty
list raises `TypeError`; the caller guards with `assert len(irr[1])`. -/
def checkIrr (poly : Coeffs) (primes : List Int) (px : Nat) :
    Except PyErr Bool :=
  match primes with
  | [] => .error .typeError
  | q :: qs =>
    if fpGet poly 0 ≠ qs.foldl (· * ·) q then .ok false
    else .ok (primes.all fun q =>
      fpCompute poly q % (px : Int) ≠ 0 ∧ fpCompute poly (-q) % (px : Int) ≠ 0)

/-- Loop of `util.egcd`: `mem = [m0, m1, m2, m3]`, iterate while `b != 1`.
`b == 0` makes Python's `a // b` raise `ZeroDivisionError`. -/
def egcdLoop : Nat → Int → Int → Int → Int → Int → Option Int →
    Except PyErr (Option Int × Option Int)
  | 0, _, _, _, _, _, _ => .error .outOfFuel
  | fuel + 1, a, b, m0, m1, m2, m3 =>
    if b = 1 then .ok (m3, some m1)
    else if b = 0 then .error .zeroDivisionError
    else
      let q := a / b
      let m1' := m0 - m1 * q
      let st :=
        match m3 with
        | none => (m2, some (1 : Int))
        | some v => (v, some (m2 - v * q))
      egcdLoop fuel b (a % b) m1 m1' st.1 st.2

/-- `util.egcd(a, b)`: returns `(None, None)` when `a % b == 0`,
otherwise the pair `(mem[3], mem[1])` of Bézout data. -/
def egcd (fuel : Nat) (a b : Int) : Except PyErr (Option Int × Option Int) :=
  if b = 0 then .error .zeroDivisionError
  else if a % b = 0 then .ok (none, none)
  else egcdLoop fuel a b 0 1 0 none

/-- The `GF` object: prime `p`, power `m`, and the (already broadcast)
irreducible polynomial `irr[0]`.  The prime list `irr[1]` is only read during
construction and is not stored in the model. -/
structure GFp where
  p : Nat
  m : Nat
  irr : Option Coeffs
  deriving Repr, DecidableEq

/-- `GF.__eq__`: componentwise comparison of `p`, `m` and `irr[0]`.  On the
sorted representation the dict comparison is plain equality.  (Comparing a
`None` modulus against a polynomial one would raise `AttributeError` in
Python; no operation in any claim mixes a prime field with an extension
field, so the model returns `false` there.) -/
def gfEqB (f g : GFp) : Bool := f == g

/-- `GF.__init__(p, m, irr, prime_check)`.  All `assert` failures are
Python `AssertionError`s (the spec's ConstructionError kind). -/
def gfInit (p m : Nat) (irr0 : Option Coeffs) (irr1 : Option (List Int))
    (primeCheck : Bool) : Except PyErr GFp :=
  if primeCheck ∧ ¬ pyIsPrime p then .error (.assertError "p must be prime")
  else if ¬ 0 < m then .error (.assertError "m must be positive")
  else if m ≠ 1 then
    match irr0 with
    | none => .error .attributeError  -- `irr[0].get_max_degree()` on None
    | some poly =>
      if fpMaxDeg poly ≠ (m : Int) then
        .error (.assertError "irreducible polynom is not for the finite field")
      else
        let poly := fpBroadcast poly p
        match irr1 with
        | none => .ok ⟨p, m, some poly⟩
        | some l =>
          if l = [] then .error (.assertError "make sure it's array")
          else if ¬ l.all (fun x => x == 1 || pyIsPrime x) then
            .error (.assertError "not prime")
          else
            match checkIrr poly l p with
            | .error e => .error e
            | .ok false => .error (.assertError "polynom is reducible")
            | .ok true => .ok ⟨p, m, some poly⟩
  else .ok ⟨p, m, irr0⟩

/-- An `FFElement`: a field descriptor and the coefficient container. -/
structure FFE where
  ff : GFp
  container : Coeffs
  deriving Repr, DecidableEq

/-- `FFElement.is_zero`: `get_max_degree() == 0 and not container` — note
the comparison against 0 (not -1), which no container can satisfy together
with emptiness. -/
def ffIsZero (e : FFE) : Bool :=
  fpMaxDeg e.container == 0 && e.container.isEmpty

/-- `FFElement.is_one`. -/
def ffIsOne (e : FFE) : Bool :=
  fpMaxDeg e.container == 0 && fpGet e.container 0 == 1

/-- `FFElement.is_integer`. -/
def ffIsInteger (e : FFE) : Bool :=
  fpMaxDeg e.container == 0 && fpGet e.container 0 != 0

/-- `FFElement.__init__(ff, container)`.  The container (if any) is reduced
mod p first; an over-degree container then raises `PrimeFieldNoFitException`
in a prime field and calls `_fit` in an extension field — but `_fit` begins
with `FFElement.gen_zero(self.ff)` and no `gen_zero` attribute exists
anywhere in the class, so `_fit` always raises `AttributeError`, re-raised
as `FFOperationException("fit", ...)`.  A `GF` with `m = 0` is impossible
(`assert m > 0`); the model maps that dead case to `AttributeError`
(`self.container` would never be assigned). -/
def ffInit (ff : GFp) : Option Coeffs → Except PyErr FFE
  | none => if ff.m = 0 then .error .attributeError else .ok ⟨ff, []⟩
  | some c =>
    if ff.m = 0 then .error .attributeError
    else if (ff.m : Int) ≤ fpMaxDeg (fpBroadcast c ff.p) then
      if ff.m = 1 then .error .primeFieldNoFit
      else .error (.ffOp "fit" "Something went wrong?")
    else .ok ⟨ff, fpBroadcast c ff.p⟩

/-- `FFElement.gen_one(ff)`. -/
def ffGenOne (ff : GFp) : Except PyErr FFE :=
  ffInit ff (some [(0, 1)])

/-- One iteration step body of `_div`'s subtraction:
`num[d1-d2+j] -= (pol2[j] * fac) % p; num[d1-d2+j] %= p`. -/
def fpDivSub (p : Nat) (pol2 : Coeffs) (fac : Int) (s : Nat)
    (num : Coeffs) : Coeffs :=
  (sortAsc (pol2.map Prod.fst)).foldl
    (fun n j =>
      let n := fpSet n (s + j) (fpGet n (s + j) - (fpGet pol2 j * fac) % (p : Int))
      fpSet n (s + j) (fpGet n (s + j) % (p : Int)))
    num

/-- The `while d1 >= d2` loop of `FFElement._div`.  `key` is the leading
coefficient of the divisor; `x % key` with `key == 0` raises
`ZeroDivisionError` (reachable only when the divisor's stored leading
coefficient is a literal 0, as `broadcast_modulo` can leave behind — the
empty divisor never gets this far, see `fpDiv`). -/
def fpDivLoop (p : Nat) (pol2 : Coeffs) (d2 : Int) (key : Int) :
    Nat → Coeffs → Coeffs → Except PyErr (Coeffs × Coeffs)
  | 0, _, _ => .error .outOfFuel
  | fuel + 1, num, divs =>
    let d1 := fpMaxDeg num
    if d1 < d2 then .ok (divs, num)
    else
      let x := fpGetI num d1
      if key = 0 then .error .zeroDivisionError
      else
        let fac? : Except PyErr Int :=
          if x % key = 0 then .ok (x / key)
          else
            match egcd (p + 1) p key with
            | .error e => .error e
            | .ok (_, none) => .error .typeError
            | .ok (_, some t) => .ok (x * t % (p : Int))
        match fac? with
        | .error e => .error e
        | .ok fac =>
          let s := (d1 - d2).toNat
          let divs := fpSet divs s fac
          let num := if fac ≠ 0 then fpDivSub p pol2 fac s num else num
          fpDivLoop p pol2 d2 key fuel num divs

/-- `FFElement._div(pol1, pol2, p)`: schoolbook polynomial division, returns
(quotient, remainder).  The early return for `d1 < d2` hands back `pol1`
itself; the shortcut guard meant to catch the zero divisor compares
`d2 == 0` instead of `-1` and an int against a dict, so it is dead code.
For the *empty* divisor (`d2 == -1`) the failure is `IndexError`, not
division by zero: `keys_pol2 = pol2.get_keys(rev=True)` first caches the
empty key list, and then `key = pol2[d2]` goes through `__getitem__`'s
`i == -1` special case into the now-cached `get_max_degree`, which
evaluates `cached_keys[-1]` on `[]`. -/
def fpDiv (p : Nat) (fuel : Nat) (pol1 pol2 : Coeffs) :
    Except PyErr (Coeffs × Coeffs) :=
  let d1 := fpMaxDeg pol1
  let d2 := fpMaxDeg pol2
  if d1 < d2 then .ok ([], pol1)
  else if d2 = -1 then .error .indexError
  else fpDivLoop p pol2 d2 (fpGetI pol2 d2) fuel pol1 []

/-- The mismatched-field assertion shared by every binary operator. -/
def sameFieldMsg : String := "x is not in the same finite field"

/-- `FFElement.__add__`: coefficientwise sum mod p over degrees `[0, m)`,
written into a fresh empty container.  (`m = 0` cannot reach here from a
constructed `GF`; the model returns the operator's AttributeError rewrap.) -/
def ffAdd (a x : FFE) : Except PyErr FFE :=
  if gfEqB a.ff x.ff then
    if a.ff.m = 0 then .error (.ffOp "+" "x is not FFElement object?")
    else .ok ⟨a.ff, (List.range a.ff.m).foldl
      (fun r i =>
        fpSet r i ((fpGet a.container i + fpGet x.container i) % (a.ff.p : Int)))
      []⟩
  else .error (.assertError sameFieldMsg)

/-- `FFElement.__sub__`. -/
def ffSub (a x : FFE) : Except PyErr FFE :=
  if gfEqB a.ff x.ff then
    if a.ff.m = 0 then .error (.ffOp "-" "x is not FFElement object?")
    else .ok ⟨a.ff, (List.range a.ff.m).foldl
      (fun r i =>
        fpSet r i ((fpGet a.container i - fpGet x.container i) % (a.ff.p : Int)))
      []⟩
  else .error (.assertError sameFieldMsg)

/-- The O(m²) convolution loop of `__mul__`: `res[i+j] += a_i * x_j % p`
followed by `res[i+j] %= p`, over all degree pairs below m. -/
def ffConv (m p : Nat) (ac xc : Coeffs) : Coeffs :=
  (List.range m).foldl
    (fun r i => (List.range m).foldl
      (fun r j =>
        let r' := fpSet r (i + j)
          (fpGet r (i + j) + fpGet ac i * fpGet xc j % (p : Int))
        fpSet r' (i + j) (fpGet r' (i + j) % (p : Int)))
      r)
    []

/-- `FFElement.__mul__`: O(m²) convolution with per-term reduction mod p,
then (in an extension field) reduction of the product by the field modulus
via `_div`, and finally the `FFElement` constructor. -/
def ffMul (fuel : Nat) (a x : FFE) : Except PyErr FFE :=
  if gfEqB a.ff x.ff then
    if a.ff.m = 1 then
      ffInit a.ff (some (ffConv a.ff.m a.ff.p a.container x.container))
    else
      match a.ff.irr with
      | none => .error (.ffOp "*" "x is not FFElement object?")
      | some irr =>
        match fpDiv a.ff.p fuel
            (ffConv a.ff.m a.ff.p a.container x.container) irr with
        | .error e => .error e
        | .ok qrem => ffInit a.ff (some qrem.2)
  else .error (.assertError sameFieldMsg)

/-- `FFElement.__floordiv__`: polynomial quotient.  The `is_zero` guard
tests the *dividend* and `is_zero` is identically false anyway; in a prime
field the quotient is plain integer floor division (raising
`ZeroDivisionError` for a zero divisor), in an extension field it is the
`_div` quotient. -/
def ffFloordiv (fuel : Nat) (a x : FFE) : Except PyErr FFE :=
  if gfEqB a.ff x.ff then
    if ffIsZero a then .error (.ffOp "//" "Division by 0 is unallowed")
    else if a.ff.m = 1 then
      if fpGet x.container 0 = 0 then .error .zeroDivisionError
      else ffInit a.ff
        (some (fpSet [] 0 (fpGet a.container 0 / fpGet x.container 0)))
    else
      match fpDiv a.ff.p fuel a.container x.container with
      | .error e => .error e
      | .ok qrem => ffInit a.ff (some qrem.1)
  else .error (.assertError sameFieldMsg)

/-- Lookup in the `pre` table of precomputed powers (`pre[j]` on a Python
dict raises `KeyError` when absent; the table always covers every bit the
loop asks for, so the error is unreachable). -/
def preLookup (pre : List (Nat × FFE)) (j : Nat) : Except PyErr FFE :=
  match pre.find? (fun kv => kv.1 = j) with
  | some kv => .ok kv.2
  | none => .error (.plainExc "KeyError")

/-- The inner bit loop of `FFElement.__mod__`: for each set bit of `i`,
multiply `temp` by the precomputed power and reduce it by the divisor in
place (`_div(..., copy=False)` mutates `temp.container`). -/
def ffModBits (p : Nat) (fuel : Nat) (pre : List (Nat × FFE)) (xc : Coeffs) :
    Nat → Nat → Nat → FFE → Except PyErr FFE
  | 0, _, _, _ => .error .outOfFuel
  | bfuel + 1, i, j, temp =>
    if i = 0 then .ok temp
    else
      let step : Except PyErr FFE :=
        if i % 2 = 1 then
          match preLookup pre j with
          | .error e => .error e
          | .ok pj =>
            match ffMul fuel temp pj with
            | .error e => .error e
            | .ok t =>
              match fpDiv p fuel t.container xc with
              | .error e => .error e
              | .ok (_, rem) => .ok ⟨t.ff, rem⟩
        else .ok temp
      match step with
      | .error e => .error e
      | .ok temp => ffModBits p fuel pre xc bfuel (i / 2) (j * 2) temp

/-- The `while a * 2 <= d` ladder of `FFElement.__mod__`: extend the table
with `pre[2a] = (pre[a] * pre[a]) mod divisor`. -/
def ffModPre (ff : GFp) (fuel : Nat) (xc : Coeffs) (d : Int) :
    Nat → Nat → List (Nat × FFE) → Except PyErr (List (Nat × FFE))
  | 0, _, _ => .error .outOfFuel
  | pfuel + 1, a, pre =>
    if (a * 2 : Int) ≤ d then
      match preLookup pre a with
      | .error e => .error e
      | .ok pa =>
        match ffMul fuel pa pa with
        | .error e => .error e
        | .ok prod =>
          match fpDiv ff.p fuel prod.container xc with
          | .error e => .error e
          | .ok (_, x2) =>
            match ffInit ff (some x2) with
            | .error e => .error e
            | .ok e2 => ffModPre ff fuel xc d pfuel (a * 2) (pre ++ [(a * 2, e2)])
    else .ok pre

/-- The `for i in self.container.get_keys(rev=True)` accumulation loop of
`FFElement.__mod__`: for each occupied degree of the dividend, build
`coeff * x^degree mod divisor` through the bit loop and add it to the
running result (`temp` starts as the constructor applied to the singleton
container `{0: coeff}`, which drops a zero coefficient). -/
def ffModAccum (ff : GFp) (p fuel : Nat) (pre : List (Nat × FFE))
    (xc acont : Coeffs) : List Nat → FFE → Except PyErr FFE
  | [], res => .ok res
  | i :: keys, res =>
    match ffInit ff (some (fpSet [] 0 (fpGet acont i))) with
    | .error e => .error e
    | .ok temp0 =>
      match ffModBits p fuel pre xc fuel i 1 temp0 with
      | .error e => .error e
      | .ok temp =>
        match ffAdd res temp with
        | .error e => .error e
        | .ok res' => ffModAccum ff p fuel pre xc acont keys res'

/-- `FFElement.__mod__`.  In a prime field the code constructs
`FastPolynom(self.ff)` — handing the `GF` object to the FastPolynom
constructor as its container dict — which raises `AttributeError` on
`container.keys()`, caught and re-raised as `FFOperationException("%", ...)`:
the prime-field branch always fails.  The extension branch is the
repeated-squaring reduction ladder. -/
def ffMod (fuel : Nat) (a x : FFE) : Except PyErr FFE :=
  if gfEqB a.ff x.ff then
    if a.ff.m = 1 then .error (.ffOp "%" "x is not FFElement object?")
    else
      match fpDiv a.ff.p fuel [(1, 1)] x.container with
      | .error e => .error e
      | .ok qx1 =>
        match ffInit a.ff (some qx1.2) with
        | .error e => .error e
        | .ok p1 =>
          match fpDiv a.ff.p fuel [(2, 1)] x.container with
          | .error e => .error e
          | .ok qx2 =>
            match ffInit a.ff (some qx2.2) with
            | .error e => .error e
            | .ok p2 =>
              match ffModPre a.ff fuel x.container (fpMaxDeg a.container)
                  fuel 2 [(1, p1), (2, p2)] with
              | .error e => .error e
              | .ok pre =>
                match ffInit a.ff none with
                | .error e => .error e
                | .ok res0 =>
                  ffModAccum a.ff a.ff.p fuel pre x.container a.container
                    (fpKeys a.container true) res0
  else .error (.assertError sameFieldMsg)

/-- `FFElement.inverse` specialized to the branches reachable when the
argument satisfies `is_integer` (maximum degree 0, as at the exit of
`FFElement.egcd`'s loop): `is_zero` is identically false, `is_one` may
return the unit, otherwise `m == 1 or max_degree == 0` holds and the
integer-egcd branch runs.  The general extension branch is unreachable
here (kept as its Python outcome for totality). -/
def ffInverseInt (s : FFE) : Except PyErr FFE :=
  if ffIsZero s then .error (.ffOp "^-1" "0 doesn't have any inverse")
  else if ffIsOne s then ffGenOne s.ff
  else if s.ff.m = 1 ∨ fpMaxDeg s.container = 0 then
    match ffInit s.ff none with
    | .error _ => .error (.ffOp "^-1" "Something went wrong?")
    | .ok res0 =>
      match egcd (s.ff.p + 1) s.ff.p (fpGet s.container 0) with
      | .error e => .error e
      | .ok (_, none) => .error .typeError
      | .ok (_, some t) =>
        .ok ⟨s.ff, fpSet res0.container 0 (t % (s.ff.p : Int))⟩
  else .error (.ffOp "^-1" "Something went wrong?")

/-- Loop of `FFElement.egcd(a, b)` (static): extended Euclid over field
elements; at exit `b` satisfies `is_integer`, so `b.inverse()` is the
integer specialization above. -/
def ffeEgcdLoop (fuel : Nat) :
    Nat → FFE → FFE → FFE → FFE → Except PyErr FFE
  | 0, _, _, _, _ => .error .outOfFuel
  | lfuel + 1, a, b, m0, m1 =>
    if ffIsInteger b then
      match ffInverseInt b with
      | .error e => .error e
      | .ok binv => ffMul fuel m1 binv
    else
      match ffFloordiv fuel a b with
      | .error e => .error e
      | .ok q =>
        match ffMul fuel m1 q with
        | .error e => .error e
        | .ok tq =>
          match ffSub m0 tq with
          | .error e => .error e
          | .ok m1' =>
            match ffMod fuel a b with
            | .error e => .error e
            | .ok r => ffeEgcdLoop fuel lfuel b r m1 m1'

/-- `FFElement.inverse`.  Zero detection is broken (`is_zero` is identically
false), so the zero element falls through to the general paths.  A degree-0
element (or any prime-field element) takes the integer `egcd` route; the
general extension case runs `FFElement.egcd` with the field modulus packed
into an element whose container is assigned directly (bypassing the
constructor's degree check).  `FFElement.egcd`'s co-primality guard calls
`is_zero` — identically false — so it never fires and only evaluates
`a % b` for its exceptions. -/
def ffInverseF (fuel : Nat) (s : FFE) : Except PyErr FFE :=
  if ffIsZero s then .error (.ffOp "^-1" "0 doesn't have any inverse")
  else if ffIsOne s then ffGenOne s.ff
  else if s.ff.m = 1 ∨ fpMaxDeg s.container = 0 then
    match ffInit s.ff none with
    | .error _ => .error (.ffOp "^-1" "Something went wrong?")
    | .ok res0 =>
      match egcd (s.ff.p + 1) s.ff.p (fpGet s.container 0) with
      | .error e => .error e
      | .ok (_, none) => .error .typeError
      | .ok (_, some t) =>
        .ok ⟨s.ff, fpSet res0.container 0 (t % (s.ff.p : Int))⟩
  else
    match s.ff.irr with
    | none => .error (.ffOp "^-1" "Something went wrong?")
    | some irr =>
      match ffMod fuel ⟨s.ff, irr⟩ s with
      | .error e => .error e
      | .ok g =>
        if ffIsZero g then .error (.plainExc "a & b must be co-prime")
        else
          match ffInit s.ff none with
          | .error e => .error e
          | .ok m0 =>
            match ffGenOne s.ff with
            | .error e => .error e
            | .ok m1 => ffeEgcdLoop fuel fuel ⟨s.ff, irr⟩ s m0 m1
/-- The `self * x.inverse()` body of `__truediv__`, before its exception
rewrapping. -/
def ffTruedivBody (fuel : Nat) (a x : FFE) : Except PyErr FFE :=
  match ffInverseF fuel x with
  | .error e => .error e
  | .ok inv => ffMul fuel a inv

/-- `FFElement.__truediv__`: multiply by the inverse.  An inner
`FFOperationException` is re-raised as the "/" division-by-zero error
(other exceptions — notably `ZeroDivisionError` — propagate unchanged). -/
def ffTruediv (fuel : Nat) (a x : FFE) : Except PyErr FFE :=
  if gfEqB a.ff x.ff then
    match ffTruedivBody fuel a x with
    | .error (.ffOp _ _) => .error (.ffOp "/" "Division by 0 is unallowed")
    | .error .attributeError => .error (.ffOp "/" "x is not FFElement object?")
    | r => r
  else .error (.assertError sameFieldMsg)

/-- A `FastPolynom` with its lazy sorted-key cache made explicit:
`cache` is the validity flag, `cachedKeys` the stored list (Python starts it
as `None`; it is only ever read when `cache` is true, by which time it has
been assigned, so a plain list suffices). -/
structure FPState where
  container : Coeffs
  cache : Bool
  cachedKeys : List Nat
  deriving Repr, DecidableEq

/-- `FastPolynom.__init__(container)`: fresh cache, zero-valued entries of
the initial dict are deleted. -/
def fpStateInit (c : Coeffs) : FPState :=
  ⟨c.filter (fun kv => kv.2 ≠ 0), false, []⟩

/-- `FastPolynom.get_keys(rev)`: return the cached list when valid;
otherwise take the key list, reverse it when `rev` is set, *then* sort it
(so `rev` never affects the output), cache and return it. -/
def fpStateKeys (s : FPState) (rev : Bool) : List Nat × FPState :=
  if s.cache then (s.cachedKeys, s)
  else
    let ks := sortAsc (if rev then (s.container.map Prod.fst).reverse
                       else s.container.map Prod.fst)
    (ks, ⟨s.container, true, ks⟩)

/-- `FastPolynom.get_max_degree`: the cached path reads `cached_keys[-1]`,
which on an empty list raises `IndexError`; the uncached path returns
`max(keys)` or `-1`. -/
def fpStateMaxDeg (s : FPState) : Except PyErr Int :=
  if s.cache then
    match s.cachedKeys.getLast? with
    | some k => .ok (k : Int)
    | none => .error .indexError
  else .ok (fpMaxDeg s.container)

/-- `FastPolynom.__setitem__` including its cache handling: deleting an
entry invalidates the cache, overwriting an existing entry keeps it, adding
a new entry invalidates it. -/
def fpStateSet (s : FPState) (i : Nat) (v : Int) : FPState :=
  if v = 0 then
    if i ∈ s.container.map Prod.fst then
      ⟨fpSet s.container i 0, false, s.cachedKeys⟩
    else s
  else
    ⟨fpSet s.container i v,
      s.cache && decide (i ∈ s.container.map Prod.fst), s.cachedKeys⟩

/-- `FastPolynom.compute(x)` on the stateful model: fold
`total = total * x + self[i]` over `get_keys(rev=True)`. -/
def fpStateCompute (s : FPState) (x : Int) : Int × FPState :=
  let ks := fpStateKeys s true
  (ks.1.foldl (fun t i => t * x + fpGet ks.2.container i) 0, ks.2)

/-- The cache invariant every reachable `FastPolynom` satisfies: a valid
cache holds exactly the sorted key list of the container. -/
def cacheOK (s : FPState) : Prop :=
  s.cache = true → s.cachedKeys = sortAsc (s.container.map Prod.fst)

/-! ### Concrete fields and elements used in the claim evaluations -/

/-- The prime field GF(101). -/
def gf101 : GFp := ⟨101, 1, none⟩

/-- The extension field GF(2^3) with modulus x^3 + x + 1 (irreducible). -/
def gf23 : GFp := ⟨2, 3, some [(0, 1), (1, 1), (3, 1)]⟩

/-- The extension field GF(2^4) with modulus x^4 + x + 1 (irreducible). -/
def gf24 : GFp := ⟨2, 4, some [(0, 1), (1, 1), (4, 1)]⟩

/-- The unit element of GF(2^3). -/
def ffe23one : FFE := ⟨gf23, [(0, 1)]⟩

/-- The zero element of GF(2^3) (as built by `FFElement(ff)`). -/
def ffe23zero : FFE := ⟨gf23, []⟩

/-! ### Spec-side definitions (for refinement comparisons only) -/

/-- Modelled from the spec: "the mathematical value of q at x, i.e. the sum
over every occupied degree d of coefficient(d) * x^d". -/
def specPolyValue (c : Coeffs) (x : Int) : Int :=
  (c.map (fun kv => kv.2 * x ^ kv.1)).sum

/-- Closed form of the fold `total = total * x + coeff(d)` over a degree
list: one multiplication by x per listed degree (gaps are not honoured). -/
def ascHorner (g : Nat → Int) (x : Int) : List Nat → Int
  | [] => 0
  | d :: l => g d * x ^ l.length + ascHorner g x l

/-- The canonical-representative invariant of the spec's data model:
maximum degree strictly below m, every stored coefficient in [0, p-1]. -/
def canonical (p m : Nat) (c : Coeffs) : Prop :=
  fpMaxDeg c < (m : Int) ∧ ∀ kv ∈ c, 0 ≤ kv.2 ∧ kv.2 ≤ (p : Int) - 1

/-- `canonical` at an element's own field parameters. -/
def canonicalFF (e : FFE) : Prop :=
  canonical e.ff.p e.ff.m e.container

/-! ### Claim theorems: concrete evaluations -/

/-- C2.  The claim's concrete prime-field instance does hold: in GF(101),
`10 * 10.inverse() == 1`.  But the universal claim fails on extension
fields: GF(2, 4) with the genuinely irreducible modulus x^4 + x + 1 passes
construction (including the irreducibility sieve with factor list [1]),
yet `inverse()` of the non-zero element x^3 + x + 1 raises Python's
builtin `IndexError` — the repeated-squaring reduction ladder prematurely
reduces x^4 by the field modulus, so `modulus % a` evaluates to the zero
polynomial, and when the extended-Euclid loop then divides by that empty
polynomial, `_div` caches its empty key list and `key = pol2[-1]` reads
`cached_keys[-1]` on `[]`. -/
theorem claim2_inverse_bug :
    (do
      let i ← ffInverseF 200 ⟨gf101, [(0, 10)]⟩
      ffMul 200 ⟨gf101, [(0, 10)]⟩ i) = .ok ⟨gf101, [(0, 1)]⟩
    ∧ gfInit 101 1 none none true = .ok gf101
    ∧ gfInit 2 4 (some [(0, 1), (1, 1), (4, 1)]) (some [1]) true = .ok gf24
    ∧ ffInverseF 60 ⟨gf24, [(0, 1), (1, 1), (3, 1)]⟩ =
        .error .indexError := by
  exact ⟨rfl, rfl, rfl, rfl⟩

/-- C3.  All three division-by-zero paths in GF(2^3) raise Python's builtin
`IndexError` — not the library's `FFOperationException` "Division by 0"
kind.  The guard in `_div` compares `d2 == 0` instead of `-1` (and an int
against a dict) and `is_zero` is identically false, so neither intended
raise is ever reached; instead `_div` caches the empty divisor's key list
via `get_keys` and then `key = pol2[-1]` evaluates `cached_keys[-1]` on
`[]`, an uncaught `IndexError`. -/
theorem claim3_zero_division_kind :
    ffTruediv 60 ffe23one ffe23zero = .error .indexError
    ∧ ffInverseF 60 ffe23zero = .error .indexError
    ∧ ffFloordiv 60 ffe23one ffe23zero = .error .indexError
    ∧ (PyErr.indexError ≠ PyErr.ffOp "/" "Division by 0 is unallowed") := by
  refine ⟨rfl, rfl, rfl, by decide⟩

/-- C4.  In a prime field, `a % b` never returns: the branch constructs
`FastPolynom(self.ff)`, handing the `GF` object to the constructor as the
container dict, which raises `AttributeError` on `container.keys()` and is
re-raised as `FFOperationException("%")`.  The claimed result would be the
plain integer modulo (10 mod 3 = 1). -/
theorem claim4_prime_mod_always_raises :
    ffMod 60 ⟨gf101, [(0, 10)]⟩ ⟨gf101, [(0, 3)]⟩ =
      .error (.ffOp "%" "x is not FFElement object?")
    ∧ (10 : Int) % 3 = 1 := by
  exact ⟨rfl, rfl⟩

/-- C5 counterexample.  Constructing GF(2, 3) with the reducible modulus
x^3 + 1 and no prime-factor list succeeds: irreducibility is not verified
for every extension-field construction. -/
theorem claim5_counterexample :
    gfInit 2 3 (some [(0, 1), (3, 1)]) none true =
      .ok ⟨2, 3, some [(0, 1), (3, 1)]⟩ := by
  exact rfl

/-- C5 amended.  The irreducibility sieve runs only when a prime-factor
list `irr[1]` is supplied: with the list [1], GF(2, 3, x^3 + x + 1)
succeeds and GF(2, 3, x^3 + 1) fails with the construction assertion
"polynom is reducible"; with `irr[1] = None` the reducible modulus is
accepted. -/
theorem claim5_amended :
    gfInit 2 3 (some [(0, 1), (1, 1), (3, 1)]) (some [1]) true = .ok gf23
    ∧ gfInit 2 3 (some [(0, 1), (3, 1)]) (some [1]) true =
        .error (.assertError "polynom is reducible")
    ∧ gfInit 2 3 (some [(0, 1), (3, 1)]) none true =
        .ok ⟨2, 3, some [(0, 1), (3, 1)]⟩ := by
  exact ⟨rfl, rfl, rfl⟩

/-- C6.  `is_zero` compares the maximum degree against 0 instead of -1, so
it returns false on *every* container — in particular on the zero element,
whose occupied-degree set is empty, where the claim requires true.  The
`is_one` half behaves as claimed on the canonical unit. -/
theorem claim6_is_zero_broken :
    (∀ c : Coeffs, ffIsZero ⟨gf23, c⟩ = false)
    ∧ ffIsOne ffe23one = true := by
  refine ⟨fun c => ?_, rfl⟩
  cases c with
  | nil => rfl
  | cons kv rest => simp [ffIsZero]

/-- C7.  The long-division identity fails: in GF(2^3), with dividend and
divisor both 1, the code computes `1 % 1 = 1` (the ladder never reduces the
dividend's degree-0 term by the divisor) and `1 // 1 = 1`, so
`(1 // 1) * 1 + (1 % 1)` is the zero element, not the dividend.  (In prime
fields the identity is un-evaluable outright, since `%` always raises.) -/
theorem claim7_division_identity_fails :
    (do
      let q ← ffFloordiv 60 ffe23one ffe23one
      let r ← ffMod 60 ffe23one ffe23one
      let qb ← ffMul 60 q ffe23one
      ffAdd qb r) = .ok ffe23zero
    ∧ ffe23zero ≠ ffe23one := by
  refine ⟨rfl, by decide⟩

/-- C8 counterexample.  `sorted_degrees`/`get_keys` with `rev=True` on the
polynomial x^2 + 1 returns the *ascending* list [0, 2] (the key list is
reversed before being sorted, so the flag has no effect), not the strictly
descending [2, 0] the claim requires. -/
theorem claim8_counterexample :
    (fpStateKeys ⟨[(0, 1), (2, 1)], false, []⟩ true).1 = [0, 2]
    ∧ (fpStateKeys ⟨[(0, 1), (2, 1)], false, []⟩ true).1 ≠ [2, 0] := by
  refine ⟨rfl, by decide⟩

/-- C9 counterexample.  `compute` on the polynomial x^2 at x = 2 returns 1,
not the mathematical value 4: the fold multiplies by x once per occupied
degree, ignoring the gaps, and iterates ascending. -/
theorem claim9_counterexample :
    (fpStateCompute ⟨[(2, 1)], false, []⟩ 2).1 = 1
    ∧ specPolyValue [(2, 1)] 2 = 4
    ∧ (1 : Int) ≠ 4 := by
  refine ⟨rfl, rfl, by decide⟩

/-- C10.  After `get_keys()` caches the (empty) sorted key list of an empty
polynomial, `get_max_degree()` reads `cached_keys[-1]` and raises
`IndexError` instead of returning -1; the uncached path does return -1. -/
theorem claim10_cached_empty_maxdeg :
    (fpStateKeys ⟨[], false, []⟩ false).2 = ⟨[], true, []⟩
    ∧ fpStateMaxDeg ⟨[], true, []⟩ = .error .indexError
    ∧ fpStateMaxDeg ⟨[], false, []⟩ = .ok (-1) := by
  exact ⟨rfl, rfl, rfl⟩

/-! ### Sorted-key view and evaluation: general statements (C8, C9) -/

/-- Insertion sort really sorts. -/
lemma sortAsc_sorted (l : List Nat) : List.Sorted (· ≤ ·) (sortAsc l) :=
  List.sorted_insertionSort _ l

/-- Insertion sort permutes its input. -/
lemma sortAsc_perm (l : List Nat) : (sortAsc l).Perm l :=
  List.perm_insertionSort _ l

/-- Sorting after reversing gives the same list as sorting directly. -/
lemma sortAsc_reverse (l : List Nat) : sortAsc l.reverse = sortAsc l :=
  List.eq_of_perm_of_sorted
    (((sortAsc_perm l.reverse).trans l.reverse_perm).trans (sortAsc_perm l).symm)
    (sortAsc_sorted _) (sortAsc_sorted _)

/-- In every cache state satisfying the invariant, `get_keys` returns the
ascending sorted key list — for both values of `rev`. -/
lemma fpStateKeys_fst (s : FPState) (h : cacheOK s) (rev : Bool) :
    (fpStateKeys s rev).1 = sortAsc (s.container.map Prod.fst) := by
  unfold fpStateKeys
  by_cases hc : s.cache
  · simp [hc, h hc]
  · cases rev <;> simp [hc, sortAsc_reverse]

/-- `get_keys` never changes the container. -/
lemma fpStateKeys_container (s : FPState) (rev : Bool) :
    (fpStateKeys s rev).2.container = s.container := by
  unfold fpStateKeys
  by_cases hc : s.cache <;> simp [hc]

/-- The fold `total = total * x + g i` in closed form. -/
lemma horner_foldl (g : Nat → Int) (x : Int) :
    ∀ (l : List Nat) (t : Int),
      l.foldl (fun t i => t * x + g i) t = t * x ^ l.length + ascHorner g x l := by
  intro l
  induction l with
  | nil => intro t; simp [ascHorner]
  | cons d l ih =>
    intro t
    simp only [List.foldl_cons, ih, ascHorner, List.length_cons]
    ring

/-- C8 amended.  In every reachable cache state (`cacheOK` is established by
the constructor and preserved by every mutation, see the lemmas below),
`sorted_degrees`/`get_keys` returns the occupied degrees sorted in
*ascending* order regardless of the `rev`/descending flag: the key list is
reversed before being sorted, so the flag has no effect. -/
theorem claim8_keys_always_ascending (s : FPState) (h : cacheOK s) (rev : Bool) :
    (fpStateKeys s rev).1 = sortAsc (s.container.map Prod.fst)
    ∧ List.Sorted (· ≤ ·) (fpStateKeys s rev).1 := by
  refine ⟨fpStateKeys_fst s h rev, ?_⟩
  rw [fpStateKeys_fst s h rev]
  exact sortAsc_sorted _

/-- C8 witness: the theorem applied to a polynomial with a valid cache and
the descending flag set. -/
theorem claim8_keys_witness :
    (fpStateKeys ⟨[(0, 5), (2, 7)], true, [0, 2]⟩ true).1 =
      sortAsc (([(0, 5), (2, 7)] : Coeffs).map Prod.fst)
    ∧ List.Sorted (· ≤ ·) (fpStateKeys ⟨[(0, 5), (2, 7)], true, [0, 2]⟩ true).1 :=
  claim8_keys_always_ascending ⟨[(0, 5), (2, 7)], true, [0, 2]⟩ (fun _ => rfl) true

/-- C9 amended.  `compute(x)` folds `total = total * x + coeff(d)` over the
occupied degrees in *ascending* order, one multiplication by x per occupied
degree (degree gaps are not honoured): it returns
`sum of coeff(d_i) * x^(n-1-i)` over the ascending occupied degrees
`d_0 < ... < d_(n-1)`, which is not in general the value of the polynomial
at x. -/
theorem claim9_compute_asc_fold (s : FPState) (h : cacheOK s) (x : Int) :
    (fpStateCompute s x).1 =
      ascHorner (fpGet s.container) x (sortAsc (s.container.map Prod.fst)) := by
  show (fpStateKeys s true).1.foldl
      (fun t i => t * x + fpGet (fpStateKeys s true).2.container i) 0 = _
  rw [fpStateKeys_container, fpStateKeys_fst s h, horner_foldl]
  simp

/-- C9 witness: the theorem applied to the polynomial 2x at x = 3. -/
theorem claim9_compute_witness :
    (fpStateCompute ⟨[(1, 2)], false, []⟩ 3).1 =
      ascHorner (fpGet [(1, 2)]) 3 (sortAsc (([(1, 2)] : Coeffs).map Prod.fst)) :=
  claim9_compute_asc_fold ⟨[(1, 2)], false, []⟩ (fun h => nomatch h) 3

/-- The constructor establishes the cache invariant. -/
lemma cacheOK_init (c : Coeffs) : cacheOK (fpStateInit c) :=
  fun h => nomatch h

/-- `get_keys` preserves (and establishes) the cache invariant. -/
lemma cacheOK_keys (s : FPState) (h : cacheOK s) (rev : Bool) :
    cacheOK (fpStateKeys s rev).2 := by
  unfold fpStateKeys
  by_cases hc : s.cache
  · simpa [hc] using h
  · intro _
    cases rev <;> simp [hc, sortAsc_reverse]

/-- Well-formedness of the sorted representation: strictly increasing
degrees (this is what every container reachable through the model's
operations satisfies; a Python dict has unique keys). -/
def fpWF (c : Coeffs) : Prop :=
  List.Pairwise (fun a b => a.1 < b.1) c

/-- Overwriting an existing key leaves the key list unchanged. -/
lemma fpInsert_keys_of_mem (i : Nat) (v : Int) :
    ∀ c : Coeffs, fpWF c → i ∈ c.map Prod.fst →
      (fpInsert c i v).map Prod.fst = c.map Prod.fst := by
  intro c
  induction c with
  | nil => intro _ hm; simp at hm
  | cons hd tl ih =>
    intro hwf hm
    unfold fpInsert
    split_ifs with h1 h2
    · exfalso
      simp only [List.map_cons, List.mem_cons] at hm
      rcases hm with rfl | hm
      · omega
      · obtain ⟨kv, hkv, rfl⟩ := List.mem_map.mp hm
        have := (List.pairwise_cons.mp hwf).1 kv hkv
        omega
    · simp [h2]
    · simp only [List.map_cons, List.mem_cons] at hm
      rcases hm with rfl | hm
      · omega
      · simp only [List.map_cons]
        rw [ih (List.pairwise_cons.mp hwf).2 hm]

/-- `__setitem__` preserves the cache invariant: deleting or inserting a key
invalidates the cache, overwriting an existing key leaves the key set (and
hence the cached sorted list) unchanged. -/
lemma cacheOK_set (s : FPState) (hwf : fpWF s.container) (h : cacheOK s)
    (i : Nat) (v : Int) : cacheOK (fpStateSet s i v) := by
  unfold fpStateSet
  split_ifs with hv hmem
  · intro hc; exact nomatch hc
  · exact h
  · intro hc
    simp only at hc ⊢
    rw [Bool.and_eq_true] at hc
    rw [h hc.1]
    unfold fpSet
    rw [if_neg hv,
      fpInsert_keys_of_mem i v s.container hwf (of_decide_eq_true hc.2)]

/-! ### Canonical-form lemmas (C1) -/

/-- The empty container is canonical for any field parameters. -/
lemma canonical_nil (p m : Nat) : canonical p m [] := by
  constructor
  · show (-1 : Int) < (m : Int)
    have : (0 : Int) ≤ (m : Int) := Int.natCast_nonneg m
    omega
  · intro kv hkv
    exact absurd hkv (List.not_mem_nil kv)

/-- A Euclidean remainder by a positive modulus lies in `[0, p-1]`. -/
lemma emod_bounds (v : Int) (p : Nat) (hp : 1 ≤ p) :
    0 ≤ v % (p : Int) ∧ v % (p : Int) ≤ (p : Int) - 1 := by
  have hp' : (0 : Int) < (p : Int) := by exact_mod_cast hp
  refine ⟨Int.emod_nonneg v (by omega), ?_⟩
  have := Int.emod_lt_of_pos v hp'
  omega

/-- `broadcast_modulo` keeps the degree set, hence the maximum degree. -/
lemma fpBroadcast_maxDeg (c : Coeffs) (p : Nat) :
    fpMaxDeg (fpBroadcast c p) = fpMaxDeg c := by
  induction c with
  | nil => rfl
  | cons kv rest ih =>
    simp only [fpBroadcast, List.map_cons, fpMaxDeg] at ih ⊢
    rw [ih]

/-- Every coefficient of a broadcast container lies in `[0, p-1]`. -/
lemma fpBroadcast_bounds (c : Coeffs) (p : Nat) (hp : 1 ≤ p) :
    ∀ kv ∈ fpBroadcast c p, 0 ≤ kv.2 ∧ kv.2 ≤ (p : Int) - 1 := by
  intro kv hkv
  obtain ⟨a, _, rfl⟩ := List.mem_map.mp hkv
  exact emod_bounds a.2 p hp

/-- The maximum degree is below a bound iff every degree is. -/
lemma fpMaxDeg_lt_iff (c : Coeffs) (M : Int) :
    fpMaxDeg c < M ↔ (-1 < M ∧ ∀ kv ∈ c, (kv.1 : Int) < M) := by
  induction c with
  | nil => simp [fpMaxDeg]
  | cons kv rest ih =>
    simp only [fpMaxDeg, max_lt_iff, ih, List.mem_cons]
    constructor
    · rintro ⟨h1, h2, h3⟩
      refine ⟨h2, ?_⟩
      intro kv' h
      rcases h with h | h
      · rw [h]; exact h1
      · exact h3 kv' h
    · rintro ⟨h1, h2⟩
      exact ⟨h2 kv (Or.inl rfl), h1, fun kv' h => h2 kv' (Or.inr h)⟩

/-- Entries of `fpInsert` come from the original container or are the new
pair. -/
lemma mem_fpInsert (i : Nat) (v : Int) :
    ∀ (c : Coeffs), ∀ kv ∈ fpInsert c i v, kv ∈ c ∨ kv = (i, v) := by
  intro c
  induction c with
  | nil =>
    intro kv h
    simp only [fpInsert, List.mem_singleton] at h
    exact Or.inr h
  | cons hd tl ih =>
    intro kv h
    unfold fpInsert at h
    split_ifs at h with h1 h2
    · rcases List.mem_cons.mp h with rfl | h
      · exact Or.inr rfl
      · exact Or.inl h
    · rcases List.mem_cons.mp h with rfl | h
      · exact Or.inr rfl
      · exact Or.inl (List.mem_cons_of_mem hd h)
    · rcases List.mem_cons.mp h with h' | h'
      · rw [h']; exact Or.inl (List.mem_cons_self hd tl)
      · rcases ih kv h' with h'' | h''
        · exact Or.inl (List.mem_cons_of_mem hd h'')
        · exact Or.inr h''

/-- Entries of `fpSet` come from the original container or are the new
pair. -/
lemma mem_fpSet (c : Coeffs) (i : Nat) (v : Int) :
    ∀ kv ∈ fpSet c i v, kv ∈ c ∨ kv = (i, v) := by
  intro kv h
  unfold fpSet at h
  split_ifs at h with hv
  · exact Or.inl (List.mem_of_mem_filter h)
  · exact mem_fpInsert i v c kv h

/-- Writing a bounded value at a degree below m preserves canonicity. -/
lemma canonical_fpSet (p m : Nat) (c : Coeffs) (i : Nat) (v : Int)
    (hc : canonical p m c) (hi : (i : Int) < (m : Int))
    (hv : 0 ≤ v ∧ v ≤ (p : Int) - 1) : canonical p m (fpSet c i v) := by
  obtain ⟨hd, hb⟩ := hc
  constructor
  · rw [fpMaxDeg_lt_iff]
    refine ⟨((fpMaxDeg_lt_iff c (m : Int)).mp hd).1, ?_⟩
    intro kv hkv
    rcases mem_fpSet c i v kv hkv with h | rfl
    · exact ((fpMaxDeg_lt_iff c (m : Int)).mp hd).2 kv h
    · exact hi
  · intro kv hkv
    rcases mem_fpSet c i v kv hkv with h | rfl
    · exact hb kv h
    · exact hv

/-- The coefficientwise `(... ) % p` write loop of `__add__`/`__sub__`
keeps the accumulator canonical when every written degree is below m. -/
lemma canonical_foldl_set (p m : Nat) (hp : 1 ≤ p) (f : Nat → Int) :
    ∀ (l : List Nat), (∀ i ∈ l, i < m) →
      ∀ acc, canonical p m acc →
        canonical p m (l.foldl (fun r i => fpSet r i (f i % (p : Int))) acc) := by
  intro l
  induction l with
  | nil => intro _ acc hacc; exact hacc
  | cons a l ih =>
    intro hl acc hacc
    simp only [List.foldl_cons]
    refine ih (fun i hi => hl i (List.mem_cons_of_mem a hi)) _ ?_
    refine canonical_fpSet p m acc a _ hacc ?_ (emod_bounds (f a) p hp)
    exact_mod_cast hl a (List.mem_cons_self a l)

/-- A successful construction forces `m ≥ 1` (an `m = 0` descriptor is
unreachable past `GF.__init__` anyway). -/
lemma ffInit_m_pos (ff : GFp) (cont : Option Coeffs) (r : FFE)
    (h : ffInit ff cont = .ok r) : 1 ≤ ff.m := by
  by_cases h0 : ff.m = 0
  · exfalso
    cases cont with
    | none =>
      simp only [ffInit] at h
      rw [if_pos h0] at h
      exact Except.noConfusion h
    | some c =>
      simp only [ffInit] at h
      rw [if_pos h0] at h
      exact Except.noConfusion h
  · omega

/-- The `FFElement` constructor only returns canonical elements: it
broadcasts the container mod p and rejects (or dead-ends into the broken
`_fit`) anything of degree ≥ m. -/
lemma ffInit_canonical (ff : GFp) (cont : Option Coeffs) (r : FFE)
    (hp : 1 ≤ ff.p) (h : ffInit ff cont = .ok r) :
    r.ff = ff ∧ canonicalFF r := by
  cases cont with
  | none =>
    simp only [ffInit] at h
    by_cases h0 : ff.m = 0
    · rw [if_pos h0] at h
      exact Except.noConfusion h
    · rw [if_neg h0] at h
      simp only [Except.ok.injEq] at h
      subst h
      exact ⟨rfl, canonical_nil _ _⟩
  | some c =>
    simp only [ffInit] at h
    by_cases h0 : ff.m = 0
    · rw [if_pos h0] at h
      exact Except.noConfusion h
    · rw [if_neg h0] at h
      by_cases hd : (ff.m : Int) ≤ fpMaxDeg (fpBroadcast c ff.p)
      · rw [if_pos hd] at h
        by_cases hm1 : ff.m = 1
        · rw [if_pos hm1] at h
          exact Except.noConfusion h
        · rw [if_neg hm1] at h
          exact Except.noConfusion h
      · rw [if_neg hd] at h
        simp only [Except.ok.injEq] at h
        subst h
        refine ⟨rfl, ?_, fpBroadcast_bounds c ff.p hp⟩
        show fpMaxDeg (fpBroadcast c ff.p) < (ff.m : Int)
        omega

/-- `__add__` returns canonical elements outright (it writes only
`(...) % p` values at degrees below m into a fresh container). -/
lemma ffAdd_canonical (a x r : FFE) (hp : 1 ≤ a.ff.p)
    (h : ffAdd a x = .ok r) : r.ff = a.ff ∧ canonicalFF r := by
  unfold ffAdd at h
  split at h
  · split at h
    · exact Except.noConfusion h
    · simp only [Except.ok.injEq] at h
      subst h
      exact ⟨rfl, canonical_foldl_set a.ff.p a.ff.m hp
        (fun i => fpGet a.container i + fpGet x.container i)
        (List.range a.ff.m) (fun i hi => List.mem_range.mp hi) []
        (canonical_nil _ _)⟩
  · exact Except.noConfusion h

/-- `__sub__` returns canonical elements outright. -/
lemma ffSub_canonical (a x r : FFE) (hp : 1 ≤ a.ff.p)
    (h : ffSub a x = .ok r) : r.ff = a.ff ∧ canonicalFF r := by
  unfold ffSub at h
  split at h
  · split at h
    · exact Except.noConfusion h
    · simp only [Except.ok.injEq] at h
      subst h
      exact ⟨rfl, canonical_foldl_set a.ff.p a.ff.m hp
        (fun i => fpGet a.container i - fpGet x.container i)
        (List.range a.ff.m) (fun i hi => List.mem_range.mp hi) []
        (canonical_nil _ _)⟩
  · exact Except.noConfusion h

/-- `__mul__` returns canonical elements: every return path goes through the
constructor. -/
lemma ffMul_canonical (fuel : Nat) (a x r : FFE) (hp : 1 ≤ a.ff.p)
    (h : ffMul fuel a x = .ok r) : r.ff = a.ff ∧ canonicalFF r := by
  unfold ffMul at h
  split at h
  · split at h
    · exact ffInit_canonical a.ff _ r hp h
    · split at h
      · exact Except.noConfusion h
      · split at h
        · exact Except.noConfusion h
        · exact ffInit_canonical a.ff _ r hp h
  · exact Except.noConfusion h

/-- `__floordiv__` returns canonical elements: every return path goes
through the constructor. -/
lemma ffFloordiv_canonical (fuel : Nat) (a x r : FFE) (hp : 1 ≤ a.ff.p)
    (h : ffFloordiv fuel a x = .ok r) : r.ff = a.ff ∧ canonicalFF r := by
  unfold ffFloordiv at h
  repeat' split at h
  all_goals
    first
    | exact Except.noConfusion h
    | exact ffInit_canonical a.ff _ r hp h

/-- The accumulation loop of `__mod__` returns canonical elements: its
result is either the initial (canonical) zero element or the last
`__add__` result. -/
lemma ffModAccum_canonical (ff0 : GFp) (p fuel : Nat) (pre : List (Nat × FFE))
    (xc acont : Coeffs) (hp : 1 ≤ ff0.p) :
    ∀ (l : List Nat) (res : FFE), res.ff = ff0 → canonicalFF res →
      ∀ r, ffModAccum ff0 p fuel pre xc acont l res = .ok r →
        r.ff = ff0 ∧ canonicalFF r := by
  intro l
  induction l with
  | nil =>
    intro res hrff hres r h
    simp only [ffModAccum, Except.ok.injEq] at h
    subst h
    exact ⟨hrff, hres⟩
  | cons i keys ih =>
    intro res hrff hres r h
    simp only [ffModAccum] at h
    split at h
    · exact Except.noConfusion h
    · split at h
      · exact Except.noConfusion h
      · split at h
        · exact Except.noConfusion h
        · rename_i x1 temp htemp x0 res' hres'
          have hpres : 1 ≤ res.ff.p := by rw [hrff]; exact hp
          have hs := ffAdd_canonical res temp res' hpres hres'
          exact ih res' (hs.1.trans hrff) hs.2 r h

/-- `__mod__` returns canonical elements (in a prime field it never
returns at all). -/
lemma ffMod_canonical (fuel : Nat) (a x r : FFE) (hp : 1 ≤ a.ff.p)
    (h : ffMod fuel a x = .ok r) : r.ff = a.ff ∧ canonicalFF r := by
  unfold ffMod at h
  split at h
  · split at h
    · exact Except.noConfusion h
    · split at h
      · exact Except.noConfusion h
      · split at h
        · exact Except.noConfusion h
        · split at h
          · exact Except.noConfusion h
          · split at h
            · exact Except.noConfusion h
            · split at h
              · exact Except.noConfusion h
              · split at h
                · exact Except.noConfusion h
                · rename_i x0 res0 hres0
                  have h0 := ffInit_canonical a.ff none res0 hp hres0
                  exact ffModAccum_canonical a.ff a.ff.p fuel _ _ _ hp
                    (fpKeys a.container true) res0 h0.1 h0.2 r h
  · exact Except.noConfusion h

/-- The integer-inverse branch returns canonical elements. -/
lemma ffInverseInt_canonical (s r : FFE) (hp : 1 ≤ s.ff.p)
    (h : ffInverseInt s = .ok r) : r.ff = s.ff ∧ canonicalFF r := by
  unfold ffInverseInt at h
  split at h
  · exact Except.noConfusion h
  · split at h
    · exact ffInit_canonical s.ff _ r hp h
    · split at h
      · split at h
        · exact Except.noConfusion h
        · split at h
          · exact Except.noConfusion h
          · exact Except.noConfusion h
          · rename_i x1 res0 hres0 x0 fste t heqe
            simp only [Except.ok.injEq] at h
            subst h
            have h0 := ffInit_canonical s.ff none res0 hp hres0
            have hm := ffInit_m_pos s.ff none res0 hres0
            have hc : canonical res0.ff.p res0.ff.m res0.container := h0.2
            rw [h0.1] at hc
            refine ⟨rfl, ?_⟩
            show canonical s.ff.p s.ff.m
              (fpSet res0.container 0 (t % (s.ff.p : Int)))
            refine canonical_fpSet _ _ _ _ _ hc ?_ (emod_bounds t s.ff.p hp)
            show ((0 : Nat) : Int) < (s.ff.m : Int)
            exact_mod_cast hm
      · exact Except.noConfusion h

/-- The loop of `FFElement.egcd` returns canonical elements: its result is
always a `__mul__` result. -/
lemma ffeEgcdLoop_canonical (ff0 : GFp) (hp : 1 ≤ ff0.p) (fuel : Nat) :
    ∀ (lfuel : Nat) (a b m0 m1 : FFE), m0.ff = ff0 → m1.ff = ff0 →
      ∀ r, ffeEgcdLoop fuel lfuel a b m0 m1 = .ok r →
        r.ff = ff0 ∧ canonicalFF r := by
  intro lfuel
  induction lfuel with
  | zero =>
    intro a b m0 m1 _ _ r h
    exact Except.noConfusion h
  | succ lf ih =>
    intro a b m0 m1 hm0 hm1 r h
    simp only [ffeEgcdLoop] at h
    split at h
    · split at h
      · exact Except.noConfusion h
      · rename_i x0 binv hbinv
        have hpm : 1 ≤ m1.ff.p := by rw [hm1]; exact hp
        have hres := ffMul_canonical fuel m1 binv r hpm h
        exact ⟨hres.1.trans hm1, hres.2⟩
    · split at h
      · exact Except.noConfusion h
      · split at h
        · exact Except.noConfusion h
        · split at h
          · exact Except.noConfusion h
          · split at h
            · exact Except.noConfusion h
            · rename_i x3 q hq x2 tq htq x1 m1' hm1' x0 rr hrr
              have hpm : 1 ≤ m0.ff.p := by rw [hm0]; exact hp
              have hs := ffSub_canonical m0 tq m1' hpm hm1'
              exact ih b rr m1 m1' hm1 (hs.1.trans hm0) r h

/-- `inverse` returns canonical elements. -/
lemma ffInverseF_canonical (fuel : Nat) (s r : FFE) (hp : 1 ≤ s.ff.p)
    (h : ffInverseF fuel s = .ok r) : r.ff = s.ff ∧ canonicalFF r := by
  unfold ffInverseF at h
  split at h
  · exact Except.noConfusion h
  · split at h
    · exact ffInit_canonical s.ff _ r hp h
    · split at h
      · split at h
        · exact Except.noConfusion h
        · split at h
          · exact Except.noConfusion h
          · exact Except.noConfusion h
          · rename_i x1 res0 hres0 x0 fste t heqe
            simp only [Except.ok.injEq] at h
            subst h
            have h0 := ffInit_canonical s.ff none res0 hp hres0
            have hm := ffInit_m_pos s.ff none res0 hres0
            have hc : canonical res0.ff.p res0.ff.m res0.container := h0.2
            rw [h0.1] at hc
            refine ⟨rfl, ?_⟩
            show canonical s.ff.p s.ff.m
              (fpSet res0.container 0 (t % (s.ff.p : Int)))
            refine canonical_fpSet _ _ _ _ _ hc ?_ (emod_bounds t s.ff.p hp)
            show ((0 : Nat) : Int) < (s.ff.m : Int)
            exact_mod_cast hm
      · split at h
        · exact Except.noConfusion h
        · split at h
          · exact Except.noConfusion h
          · split at h
            · exact Except.noConfusion h
            · split at h
              · exact Except.noConfusion h
              · split at h
                · exact Except.noConfusion h
                · rename_i x1 m0 hm0e x0 m1 hm1e
                  have h0 := ffInit_canonical s.ff none m0 hp hm0e
                  have h1 := ffInit_canonical s.ff (some [(0, 1)]) m1 hp hm1e
                  exact ffeEgcdLoop_canonical s.ff hp fuel fuel _ s
                    m0 m1 h0.1 h1.1 r h

/-- `__truediv__` returns canonical elements (its value paths are exactly
`__mul__` results). -/
lemma ffTruediv_canonical (fuel : Nat) (a x r : FFE) (hp : 1 ≤ a.ff.p)
    (h : ffTruediv fuel a x = .ok r) : r.ff = a.ff ∧ canonicalFF r := by
  unfold ffTruediv at h
  split at h
  · cases hb : ffTruedivBody fuel a x with
    | error e =>
      rw [hb] at h
      cases e <;> exact Except.noConfusion h
    | ok v =>
      rw [hb] at h
      simp only [Except.ok.injEq] at h
      subst h
      unfold ffTruedivBody at hb
      split at hb
      · exact Except.noConfusion hb
      · exact ffMul_canonical fuel a _ v hp hb
  · exact Except.noConfusion h

/-- C1.  Canonical-form invariant: on a validated field GF(p, m)
(p prime hence ≥ 1, m ≥ 1), every `FFElement` returned by a public
operation — construction, addition, subtraction, multiplication, division,
floor division, modulo, inverse — has a polynomial of maximum degree
strictly below m with every stored coefficient in [0, p-1].  (Operations
that raise return no element and are not constrained.) -/
theorem claim1_results_canonical (ff : GFp) (hp : 1 ≤ ff.p) (hm : 1 ≤ ff.m) :
    (∀ cont r, ffInit ff cont = .ok r → canonicalFF r)
    ∧ (∀ a x r, a.ff = ff → ffAdd a x = .ok r → canonicalFF r)
    ∧ (∀ a x r, a.ff = ff → ffSub a x = .ok r → canonicalFF r)
    ∧ (∀ fuel a x r, a.ff = ff → ffMul fuel a x = .ok r → canonicalFF r)
    ∧ (∀ fuel a x r, a.ff = ff → ffTruediv fuel a x = .ok r → canonicalFF r)
    ∧ (∀ fuel a x r, a.ff = ff → ffFloordiv fuel a x = .ok r → canonicalFF r)
    ∧ (∀ fuel a x r, a.ff = ff → ffMod fuel a x = .ok r → canonicalFF r)
    ∧ (∀ fuel s r, s.ff = ff → ffInverseF fuel s = .ok r → canonicalFF r) := by
  refine ⟨?_, ?_, ?_, ?_, ?_, ?_, ?_, ?_⟩
  · intro cont r h
    exact (ffInit_canonical ff cont r hp h).2
  · intro a x r hff h
    exact (ffAdd_canonical a x r (by rw [hff]; exact hp) h).2
  · intro a x r hff h
    exact (ffSub_canonical a x r (by rw [hff]; exact hp) h).2
  · intro fuel a x r hff h
    exact (ffMul_canonical fuel a x r (by rw [hff]; exact hp) h).2
  · intro fuel a x r hff h
    exact (ffTruediv_canonical fuel a x r (by rw [hff]; exact hp) h).2
  · intro fuel a x r hff h
    exact (ffFloordiv_canonical fuel a x r (by rw [hff]; exact hp) h).2
  · intro fuel a x r hff h
    exact (ffMod_canonical fuel a x r (by rw [hff]; exact hp) h).2
  · intro fuel s r hff h
    exact (ffInverseF_canonical fuel s r (by rw [hff]; exact hp) h).2

/-- C1 witness: the theorem applied in GF(2^3) to one concrete run of each
public operation. -/
theorem claim1_witness :
    canonicalFF ⟨gf23, [(0, 1), (1, 1)]⟩
    ∧ canonicalFF ⟨gf23, [(1, 1)]⟩
    ∧ canonicalFF ⟨gf23, [(0, 1), (2, 1)]⟩
    ∧ canonicalFF ⟨gf23, [(0, 1)]⟩
    ∧ canonicalFF ⟨gf23, [(2, 1)]⟩ := by
  have h := claim1_results_canonical gf23 (by decide) (by decide)
  refine ⟨h.1 (some [(0, 5), (1, 3)]) _ rfl, ?_, ?_, ?_, ?_⟩
  · exact h.2.1 ⟨gf23, [(0, 1), (1, 1), (2, 1)]⟩ ⟨gf23, [(0, 1), (2, 1)]⟩
      _ rfl rfl
  · exact h.2.2.2.1 60 ⟨gf23, [(0, 1), (1, 1), (2, 1)]⟩ ⟨gf23, [(1, 1)]⟩
      _ rfl rfl
  · exact h.2.2.2.2.2.2.1 60 ⟨gf23, [(2, 1)]⟩ ⟨gf23, [(0, 1), (1, 1)]⟩
      _ rfl rfl
  · exact h.2.2.2.2.2.2.2 60 ⟨gf23, [(0, 1), (1, 1), (2, 1)]⟩ _ rfl rfl

end GaloisField
